import Mathlib

/-!
Verification of the core logic of mstdn_rssfeed_parser (src/index.js, the
variant with tag filtering and content segmentation, lines 157-303).

JavaScript strings are modelled as lists of characters; the JS operations
substring, indexOf and length are modelled character-wise.  The external
twitter-text weighting function (parseTweet(...).weightedLength) is an
abstract parameter w : List Char -> Nat.  Machine timestamps
(Date.getTime(), the DynamoDB pubDate attribute) are modelled as Int.
The hard-coded literals of the source (separator "====", limit 280) are
kept as parameters of the segmentation loop and instantiated at the
run level exactly as in the source.
-/

abbrev Str := List Char

/-- Character-wise prefix test: strHasPre p s is true when p is an
initial run of s. -/
def strHasPre : Str → Str → Bool
  | [], _ => true
  | _ :: _, [] => false
  | a :: p, b :: s => a == b && strHasPre p s

/-- JS s.indexOf(pat), character-wise: the first index at which pat occurs
in s, as an Option (JS returns -1 for no occurrence; an empty pat gives
index 0, as in JS). -/
def strIndexOf? (s pat : Str) : Option Nat :=
  if strHasPre pat s then some 0
  else
    match s with
    | [] => none
    | _ :: s' => (strIndexOf? s' pat).map (· + 1)

/-- JS cat.toLowerCase(), character-wise (the tags compared are ASCII). -/
def strToLower (s : Str) : Str := s.map Char.toLower

/-- The candidate-shortening loop of src/index.js lines 230-233:
while the weighted length exceeds maxLen, drop the last character
(potentialSegment.substring(0, potentialSegment.length - 1)).  The loop is
written with explicit fuel so that it is structurally recursive; shorten
below supplies fuel equal to the string length, which is exactly enough,
since each step shortens the string by one character.  When the string
has been shortened to empty and its weight still exceeds maxLen the
source loop would never exit; that state is modelled by the fuel-0 /
empty base cases returning the empty string, and the outer loop then
makes no progress (see segLoopI), reproducing the divergence as a none
result. -/
def shortenFuel (w : Str → Nat) (maxLen : Nat) : Nat → Str → Str
  | 0, s => s
  | fuel + 1, s =>
    if w s ≤ maxLen then s
    else
      match s with
      | [] => []
      | _ :: _ => shortenFuel w maxLen fuel s.dropLast

/-- The settled candidate of src/index.js lines 227-233, starting from the
raw candidate s (remainingContent.substring(0, 280)). -/
def shorten (w : Str → Nat) (maxLen : Nat) (s : Str) : Str :=
  shortenFuel w maxLen s.length s

/-- One emitted segment of the segmentation loop, instrumented with how it
was produced: explicitCut is true for the cut-at-separator branch
(src/index.js lines 223-225), and sepConsumed is true whenever the
iteration consumed a separator occurrence from the remaining content
(lines 225 and 238-239). -/
structure SegInfo where
  text : Str
  explicitCut : Bool
  sepConsumed : Bool
  deriving DecidableEq, Repr

/-- The else-branch of one iteration of the segmentation loop
(src/index.js lines 226-243): settle a candidate by shortening, then
consume a separator that starts exactly at the candidate end, if any. -/
def segStepB (w : Str → Nat) (sep : Str) (maxLen : Nat) (rem : Str) :
    SegInfo × Str :=
  match strIndexOf? rem sep with
  | some i =>
    if i = (shorten w maxLen (rem.take maxLen)).length then
      (⟨shorten w maxLen (rem.take maxLen), false, true⟩,
        rem.drop (i + sep.length))
    else
      (⟨shorten w maxLen (rem.take maxLen), false, false⟩,
        rem.drop (shorten w maxLen (rem.take maxLen)).length)
  | none =>
    (⟨shorten w maxLen (rem.take maxLen), false, false⟩,
      rem.drop (shorten w maxLen (rem.take maxLen)).length)

/-- One iteration of the segmentation loop body (src/index.js lines
222-244): if the separator occurs within the first maxLen characters,
cut there and consume the separator; otherwise run the
candidate-shortening branch. -/
def segStep (w : Str → Nat) (sep : Str) (maxLen : Nat) (rem : Str) :
    SegInfo × Str :=
  match strIndexOf? rem sep with
  | some i =>
    if i < maxLen then
      (⟨rem.take i, true, true⟩, rem.drop (i + sep.length))
    else
      segStepB w sep maxLen rem
  | none => segStepB w sep maxLen rem

/-- The segmentation loop of src/index.js lines 221-245
(while remainingContent.length > 0), with explicit fuel: a none result
means the fuel ran out, which with the fuel supplied by segmentInfos
happens exactly when an iteration consumes no characters, i.e. when the
source loop diverges. -/
def segLoopI (w : Str → Nat) (sep : Str) (maxLen : Nat) :
    Nat → Str → Option (List SegInfo)
  | 0, _ => none
  | fuel + 1, rem =>
    if rem = [] then some []
    else
      (segLoopI w sep maxLen fuel (segStep w sep maxLen rem).2).map
        (fun infos => (segStep w sep maxLen rem).1 :: infos)

/-- The instrumented segmentation of a whole content string. -/
def segmentInfos (w : Str → Nat) (sep : Str) (maxLen : Nat) (content : Str) :
    Option (List SegInfo) :=
  segLoopI w sep maxLen (content.length + 1) content

/-- contentSegments of src/index.js: the emitted segment texts. -/
def segmentContent (w : Str → Nat) (sep : Str) (maxLen : Nat)
    (content : Str) : Option (List Str) :=
  (segmentInfos w sep maxLen content).map (List.map SegInfo.text)

/-- A plain weighting function (one unit per character), used as a
concrete instance of the abstract twitter-text weighting. -/
def plainWeight : Str → Nat := List.length

/-- A parsed feed item (src/index.js item record, after the external
collaborators ran: pubDate is new Date(item.pubDate[0]).getTime(),
content is htmlToText(item.description[0]), mediaUrl is
item[media:content][0].$.url when present, categories is item.category
(an absent category field behaves like the empty list). -/
structure FeedItem where
  permalink : Str
  pubDate : Int
  content : Str
  mediaUrl : Option Str
  categories : List Str
  deriving DecidableEq, Repr

/-- The exclusion-tag check of src/index.js line 203:
item.category && item.category.find(cat => cat.toLowerCase() === 'nocrosspost'). -/
def hasExclusionTag (item : FeedItem) : Bool :=
  item.categories.any (fun cat => strToLower cat == "nocrosspost".toList)

/-- The newness test of src/index.js line 208:
!lastProcessedPubDate || lastProcessedPubDate < pubDate.  JS truthiness
makes a stored checkpoint of 0 behave like an absent one. -/
def isNewItem : Option Int → Int → Bool
  | none, _ => true
  | some c, pub => c == 0 || decide (c < pub)

/-- The per-segment checkpoint update of src/index.js line 262:
if (!newProcessedPubDate || newProcessedPubDate < pubDate)
newProcessedPubDate = pubDate.  Again 0 is falsy. -/
def ckptUpdate : Option Int → Int → Option Int
  | none, pub => some pub
  | some c, pub => if c == 0 then some pub else if c < pub then some pub else some c

/-- The outbound channel: which IFTTT event name the webhook call uses
(IFTTT_EVENT_NAME, or IFTTT_EVENT_NAME_WITH_IMAGE for the first segment
of an item that has media). -/
inductive Channel where
  | default
  | withImage
  deriving DecidableEq, Repr

/-- One webhook payload of src/index.js lines 251-257: value1 is the
segment text, value2 the media url when attached. -/
structure Payload where
  value1 : Str
  value2 : Option Str
  channel : Channel
  deriving DecidableEq, Repr

/-- The per-segment send loop of src/index.js lines 247-272, for one item:
builds one payload per segment (media and the with-image channel only
when firstSegment and the item has media), updates the shared
newProcessedPubDate before each send, and returns the payloads in send
order together with the final checkpoint candidate.  The webhook send
itself is external and modelled as always settling. -/
def dispatchSegments (mediaUrl : Option Str) (pub : Int) :
    Bool → Option Int → List Str → List Payload × Option Int
  | _, ckpt, [] => ([], ckpt)
  | firstSegment, ckpt, seg :: rest =>
    let p : Payload :=
      if firstSegment && mediaUrl.isSome then ⟨seg, mediaUrl, Channel.withImage⟩
      else ⟨seg, none, Channel.default⟩
    let ckpt' := ckptUpdate ckpt pub
    let r := dispatchSegments mediaUrl pub false ckpt' rest
    (p :: r.1, r.2)

/-- One dispatched item: the item together with the webhook payloads sent
for it, in order. -/
structure Dispatch where
  item : FeedItem
  payloads : List Payload
  deriving DecidableEq, Repr

/-- The body of the latestItems.map callback of src/index.js lines
197-278, iterated over the item list in order, threading the shared
newProcessedPubDate: tag-excluded items are skipped (line 203-205) and
items not newer than the fixed lastProcessedPubDate are skipped (line
208); the rest are segmented (separator "====", limit 280, lines
216-245) and dispatched.  A none result models an item whose
segmentation loop diverges, so that its promise never settles and the
run never reaches the checkpoint commit. -/
def processItems (w : Str → Nat) (last : Option Int) :
    List FeedItem → Option Int → Option (List Dispatch × Option Int)
  | [], ckpt => some ([], ckpt)
  | item :: rest, ckpt =>
    if hasExclusionTag item then processItems w last rest ckpt
    else if isNewItem last item.pubDate then
      match segmentContent w "====".toList 280 item.content with
      | none => none
      | some segs =>
        let r := dispatchSegments item.mediaUrl item.pubDate true ckpt segs
        (processItems w last rest r.2).map
          (fun q => (⟨item, r.1⟩ :: q.1, q.2))
    else processItems w last rest ckpt

/-- The item-selection and dispatch phase of one run (src/index.js lines
191-278): keep the first maxItems feed items (the feed is newest-first),
reverse them (line 191), then process them in that order.  Both the
newness baseline and the initial checkpoint candidate are the loaded
checkpoint (lines 167-168).  Returns the dispatches in order and the
final checkpoint candidate. -/
def processRun (w : Str → Nat) (maxItems : Nat) (last : Option Int)
    (items : List FeedItem) : Option (List Dispatch × Option Int) :=
  processItems w last ((items.take maxItems).reverse) last

/-- The observable outcome of one handler invocation: escaped is the
error the returned promise rejected with, if any (an exception escaping
the entry point), and written is the checkpoint value put to the store,
if any. -/
structure RunOutcome where
  escaped : Option Str
  written : Option Int
  deriving DecidableEq, Repr

/-- The handler of src/index.js lines 157-303.  The feed fetch (line 159)
and the checkpoint read (line 163) happen before the try block, so their
failures reject the returned promise (escape).  Parse failures (line
182) are caught by the catch at line 300 and only logged.  The commit at
lines 283-298 runs after all dispatch promises settle; a put failure (or
the TypeError from newProcessedPubDate.toString() when the candidate is
still null) is caught by the .catch at line 295, so the run resolves
with nothing written.  A none result models a run that never settles
(diverging segmentation). -/
def handlerModel (w : Str → Nat) (maxItems : Nat)
    (fetchResult : Except Str Str)
    (ckptRead : Except Str (Option Int))
    (parse : Str → Except Str (List FeedItem))
    (putOk : Bool) : Option RunOutcome :=
  match fetchResult with
  | .error e => some ⟨some e, none⟩
  | .ok body =>
    match ckptRead with
    | .error e => some ⟨some e, none⟩
    | .ok last =>
      match parse body with
      | .error _ => some ⟨none, none⟩
      | .ok items =>
        match processRun w maxItems last items with
        | none => none
        | some r =>
          match r.2 with
          | none => some ⟨none, none⟩
          | some v => some ⟨none, if putOk then some v else none⟩

/-- Reconstruction of a content string from its instrumented segments:
each segment text, followed by the separator at every position where the
loop consumed one. -/
def reconstructSegs (sep : Str) (infos : List SegInfo) : Str :=
  infos.foldr
    (fun info acc => info.text ++ (if info.sepConsumed then sep else []) ++ acc)
    []

/-- The publish times that actually advanced the checkpoint candidate: one
per dispatched item that produced at least one segment (the per-segment
update of src/index.js line 262 runs once per payload). -/
def dispatchedPubs (ds : List Dispatch) : List Int :=
  ds.filterMap
    (fun d => if d.payloads.isEmpty then none else some d.item.pubDate)

/-- A plain feed item with no media and no tags, for concrete scenarios. -/
def itemPlain (pub : Int) (content : Str) : FeedItem :=
  ⟨"p".toList, pub, content, none, []⟩

/-- Decomposition along a successful prefix test. -/
theorem strHasPre_decomp : ∀ (p s : Str), strHasPre p s = true →
    s = p ++ s.drop p.length := by
  intro p
  induction p with
  | nil => intro s _; simp
  | cons a p ih =>
    intro s h
    cases s with
    | nil => simp [strHasPre] at h
    | cons b s' =>
      simp only [strHasPre, Bool.and_eq_true, beq_iff_eq] at h
      obtain ⟨hab, hps⟩ := h
      simp only [List.length_cons, List.drop_succ_cons, List.cons_append,
        hab]
      exact congrArg (b :: ·) (ih s' hps)

/-- Decomposition along a found occurrence: the string splits as the part
before the occurrence, the pattern, and the rest. -/
theorem strIndexOf?_decomp : ∀ (s pat : Str) (i : Nat),
    strIndexOf? s pat = some i →
    s = s.take i ++ pat ++ s.drop (i + pat.length) := by
  intro s
  induction s with
  | nil =>
    intro pat i h
    unfold strIndexOf? at h
    split at h
    · next hpre =>
      obtain rfl : (0 : Nat) = i := Option.some.inj h
      simpa using strHasPre_decomp pat [] hpre
    · exact absurd h (by simp)
  | cons b s' ih =>
    intro pat i h
    unfold strIndexOf? at h
    split at h
    · next hpre =>
      obtain rfl : (0 : Nat) = i := Option.some.inj h
      simpa using strHasPre_decomp pat (b :: s') hpre
    · next hpre =>
      obtain ⟨j, hj, rfl⟩ := Option.map_eq_some'.mp h
      have hd := ih pat j hj
      simp only [List.take_succ_cons, List.drop_succ_cons, List.cons_append]
      rw [Nat.add_right_comm]
      simp only [List.drop_succ_cons]
      exact congrArg (b :: ·) hd

/-- The shortening loop only removes trailing characters: its result is
a prefix of its input (stated as a take of the input). -/
theorem shortenFuel_eq_take (w : Str → Nat) (maxLen : Nat) :
    ∀ (fuel : Nat) (s : Str),
    shortenFuel w maxLen fuel s =
      s.take (shortenFuel w maxLen fuel s).length := by
  intro fuel
  induction fuel with
  | zero => intro s; simp [shortenFuel]
  | succ fuel ih =>
    intro s
    unfold shortenFuel
    split
    · simp
    · match s with
      | [] => simp
      | a :: t =>
        show shortenFuel w maxLen fuel (a :: t).dropLast =
          List.take (shortenFuel w maxLen fuel (a :: t).dropLast).length
            (a :: t)
        have h := ih (a :: t).dropLast
        have hlen : (shortenFuel w maxLen fuel (a :: t).dropLast).length ≤
            t.length := by
          conv_lhs => rw [h]
          calc (List.take (shortenFuel w maxLen fuel
                  (a :: t).dropLast).length ((a :: t).dropLast)).length
              ≤ ((a :: t).dropLast).length := List.length_take_le' _ _
            _ = t.length := by simp
        conv_lhs => rw [h]
        rw [List.dropLast_eq_take, List.take_take]
        congr 1
        simp only [List.length_cons, Nat.add_sub_cancel]
        rw [List.dropLast_eq_take] at hlen
        simp only [List.length_cons, Nat.add_sub_cancel] at hlen
        exact Nat.min_eq_left hlen

/-- The settled candidate either satisfies the weighted bound or is the
empty string (the state in which the source loop would not exit). -/
theorem shortenFuel_spec (w : Str → Nat) (maxLen : Nat) :
    ∀ (fuel : Nat) (s : Str), s.length ≤ fuel →
    w (shortenFuel w maxLen fuel s) ≤ maxLen ∨
      shortenFuel w maxLen fuel s = [] := by
  intro fuel
  induction fuel with
  | zero =>
    intro s hs
    have : s = [] := List.eq_nil_of_length_eq_zero (Nat.le_zero.mp hs)
    subst this
    simp [shortenFuel]
  | succ fuel ih =>
    intro s hs
    unfold shortenFuel
    split
    · exact Or.inl ‹_›
    · match s with
      | [] => simp
      | a :: t =>
        apply ih
        simp only [List.dropLast_eq_take]
        simp at hs ⊢
        omega

/-- shorten version of shortenFuel_spec. -/
theorem shorten_spec (w : Str → Nat) (maxLen : Nat) (s : Str) :
    w (shorten w maxLen s) ≤ maxLen ∨ shorten w maxLen s = [] :=
  shortenFuel_spec w maxLen s.length s (Nat.le_refl _)

/-- shorten version of shortenFuel_eq_take. -/
theorem shorten_eq_take (w : Str → Nat) (maxLen : Nat) (s : Str) :
    shorten w maxLen s = s.take (shorten w maxLen s).length :=
  shortenFuel_eq_take w maxLen s.length s

/-- The candidate settled from the head of rem is an initial run of rem
itself. -/
theorem shorten_take_eq_take (w : Str → Nat) (maxLen : Nat) (rem : Str) :
    shorten w maxLen (rem.take maxLen) =
      rem.take (shorten w maxLen (rem.take maxLen)).length := by
  have h := shorten_eq_take w maxLen (rem.take maxLen)
  have hlen : (shorten w maxLen (rem.take maxLen)).length ≤ maxLen := by
    conv_lhs => rw [h]
    calc (List.take (shorten w maxLen (rem.take maxLen)).length
            (rem.take maxLen)).length
        ≤ (rem.take maxLen).length := List.length_take_le' _ _
      _ ≤ maxLen := List.length_take_le _ _
  conv_lhs => rw [h]
  rw [List.take_take]
  congr 1
  exact Nat.min_eq_left hlen

/-- One iteration of the candidate branch consumes exactly its emitted
text plus the separator occurrence it consumed, if any. -/
theorem segStepB_decomp (w : Str → Nat) (sep : Str) (maxLen : Nat)
    (rem : Str) :
    rem = (segStepB w sep maxLen rem).1.text ++
      (if (segStepB w sep maxLen rem).1.sepConsumed then sep else []) ++
      (segStepB w sep maxLen rem).2 := by
  have hseg := shorten_take_eq_take w maxLen rem
  have hplain : rem = shorten w maxLen (rem.take maxLen) ++ [] ++
      rem.drop (shorten w maxLen (rem.take maxLen)).length := by
    conv_lhs =>
      rw [← List.take_append_drop
        (shorten w maxLen (rem.take maxLen)).length rem]
    rw [← hseg]
    simp
  unfold segStepB
  cases hidx : strIndexOf? rem sep with
  | none => simpa using hplain
  | some i =>
    dsimp only
    by_cases hi : i = (shorten w maxLen (rem.take maxLen)).length
    · rw [if_pos hi]
      have hdec := strIndexOf?_decomp rem sep i hidx
      simp only
      conv_lhs => rw [hdec]
      rw [hi, ← hseg]
      simp
    · rw [if_neg hi]
      simpa using hplain

/-- One full iteration of the segmentation loop consumes exactly its
emitted text plus the separator occurrence it consumed, if any. -/
theorem segStep_decomp (w : Str → Nat) (sep : Str) (maxLen : Nat)
    (rem : Str) :
    rem = (segStep w sep maxLen rem).1.text ++
      (if (segStep w sep maxLen rem).1.sepConsumed then sep else []) ++
      (segStep w sep maxLen rem).2 := by
  unfold segStep
  cases hidx : strIndexOf? rem sep with
  | none => exact segStepB_decomp w sep maxLen rem
  | some i =>
    dsimp only
    by_cases hlt : i < maxLen
    · rw [if_pos hlt]
      have hdec := strIndexOf?_decomp rem sep i hidx
      simpa using hdec
    · rw [if_neg hlt]
      exact segStepB_decomp w sep maxLen rem

/-- If an iteration makes no progress, the loop runs out of fuel: this is
the state in which the source while-loop diverges. -/
theorem segLoopI_none_of_fix (w : Str → Nat) (sep : Str) (maxLen : Nat)
    (rem : Str) (hrem : ¬ rem = [])
    (hfix : (segStep w sep maxLen rem).2 = rem) :
    ∀ fuel, segLoopI w sep maxLen fuel rem = none := by
  intro fuel
  induction fuel with
  | zero => rfl
  | succ fuel ih =>
    unfold segLoopI
    rw [if_neg hrem, hfix, ih]
    rfl

/-- In the candidate branch (called with the separator either absent or
at index at least maxLen), the emitted text satisfies the weighted bound,
or the iteration makes no progress. -/
theorem segStepB_bound_or_fix (w : Str → Nat) (sep : Str) (maxLen : Nat)
    (rem : Str) (hge : ∀ i, strIndexOf? rem sep = some i → maxLen ≤ i)
    (hmax : 0 < maxLen) :
    w (segStepB w sep maxLen rem).1.text ≤ maxLen ∨
      (segStepB w sep maxLen rem).2 = rem := by
  by_cases hw : w (shorten w maxLen (rem.take maxLen)) ≤ maxLen
  · left
    unfold segStepB
    cases hidx : strIndexOf? rem sep with
    | none => exact hw
    | some i =>
      dsimp only
      by_cases hi : i = (shorten w maxLen (rem.take maxLen)).length
      · rw [if_pos hi]; exact hw
      · rw [if_neg hi]; exact hw
  · right
    have hnil : shorten w maxLen (rem.take maxLen) = [] :=
      (shorten_spec w maxLen (rem.take maxLen)).resolve_left hw
    unfold segStepB
    cases hidx : strIndexOf? rem sep with
    | none => simp [hnil]
    | some i =>
      have hge' := hge i hidx
      dsimp only
      rw [if_neg (by rw [hnil]; simp; omega)]
      simp [hnil]

/-- Every iteration either cuts at an explicit separator, or emits text
within the weighted bound, or makes no progress. -/
theorem segStep_cut_or_bound_or_fix (w : Str → Nat) (sep : Str)
    (maxLen : Nat) (rem : Str) (hmax : 0 < maxLen) :
    (segStep w sep maxLen rem).1.explicitCut = true ∨
      w (segStep w sep maxLen rem).1.text ≤ maxLen ∨
      (segStep w sep maxLen rem).2 = rem := by
  unfold segStep
  cases hidx : strIndexOf? rem sep with
  | none =>
    exact Or.inr (segStepB_bound_or_fix w sep maxLen rem
      (fun i hi => by rw [hidx] at hi; exact absurd hi (by simp)) hmax)
  | some i =>
    dsimp only
    by_cases hlt : i < maxLen
    · rw [if_pos hlt]; exact Or.inl rfl
    · rw [if_neg hlt]
      refine Or.inr (segStepB_bound_or_fix w sep maxLen rem ?_ hmax)
      intro j hj
      rw [hidx] at hj
      obtain rfl : i = j := Option.some.inj hj
      omega

/-- The shortening loop, given that a single character always fits the
bound, ends at a nonempty candidate within the bound. -/
theorem shortenFuel_ok (w : Str → Nat) (maxLen : Nat)
    (hone : ∀ c : Char, w [c] ≤ maxLen) :
    ∀ (fuel : Nat) (s : Str), s.length ≤ fuel → s ≠ [] →
    shortenFuel w maxLen fuel s ≠ [] ∧
      w (shortenFuel w maxLen fuel s) ≤ maxLen := by
  intro fuel
  induction fuel with
  | zero =>
    intro s hs hne
    exact absurd (List.eq_nil_of_length_eq_zero (Nat.le_zero.mp hs)) hne
  | succ fuel ih =>
    intro s hs hne
    unfold shortenFuel
    split
    · exact ⟨hne, ‹_›⟩
    · next hw =>
      match s, hne with
      | [a], _ => exact absurd (hone a) hw
      | a :: b :: t, _ =>
        show shortenFuel w maxLen fuel (a :: b :: t).dropLast ≠ [] ∧ _
        apply ih
        · simp at hs ⊢
          omega
        · rw [List.dropLast_cons₂]
          exact List.cons_ne_nil _ _

/-- For a positive current candidate, the per-segment update is a max. -/
theorem ckptUpdate_pos (a pub : Int) (h : 0 < a) :
    ckptUpdate (some a) pub = some (max a pub) := by
  unfold ckptUpdate
  dsimp only
  rw [if_neg (by simp; omega)]
  by_cases hlt : a < pub
  · rw [if_pos hlt]
    exact congrArg some (max_eq_right (le_of_lt hlt)).symm
  · rw [if_neg hlt]
    exact congrArg some (max_eq_left (by omega)).symm

/-- Once the candidate dominates the publish time, further per-segment
updates keep it unchanged. -/
theorem foldl_ckptUpdate_const (pub b : Int) (hb : 0 < b) (hpb : pub ≤ b) :
    ∀ l : List Str,
    List.foldl (fun a _ => ckptUpdate a pub) (some b) l = some b := by
  intro l
  induction l with
  | nil => rfl
  | cons s t ih =>
    simp only [List.foldl_cons]
    rw [ckptUpdate_pos b pub hb, max_eq_left hpb]
    exact ih

/-- Over at least one segment, the per-segment updates amount to a single
max with the publish time. -/
theorem foldl_ckptUpdate_cons (a pub : Int) (ha : 0 < a) (s : Str)
    (rest : List Str) :
    List.foldl (fun x _ => ckptUpdate x pub) (some a) (s :: rest) =
      some (max a pub) := by
  simp only [List.foldl_cons]
  rw [ckptUpdate_pos a pub ha]
  exact foldl_ckptUpdate_const pub (max a pub)
    (lt_of_lt_of_le ha (le_max_left a pub)) (le_max_right a pub) rest

/-- The checkpoint candidate returned by the per-item segment loop is the
fold of the per-segment update over the segments. -/
theorem dispatchSegments_snd (media : Option Str) (pub : Int) :
    ∀ (segs : List Str) (first : Bool) (ckpt : Option Int),
    (dispatchSegments media pub first ckpt segs).2 =
      List.foldl (fun a _ => ckptUpdate a pub) ckpt segs := by
  intro segs
  induction segs with
  | nil => intro first ckpt; rfl
  | cons s rest ih =>
    intro first ckpt
    show (dispatchSegments media pub false (ckptUpdate ckpt pub) rest).2 =
      List.foldl (fun a _ => ckptUpdate a pub) (ckptUpdate ckpt pub) rest
    exact ih false (ckptUpdate ckpt pub)

/-- Every payload built after the first carries no media and goes to the
default channel. -/
theorem dispatchSegments_rest (media : Option Str) (pub : Int) :
    ∀ (segs : List Str) (ckpt : Option Int) (p : Payload),
    p ∈ (dispatchSegments media pub false ckpt segs).1 →
    p.value2 = none ∧ p.channel = Channel.default := by
  intro segs
  induction segs with
  | nil => intro ckpt p hp; simp [dispatchSegments] at hp
  | cons s rest ih =>
    intro ckpt p hp
    have hcons : (dispatchSegments media pub false ckpt (s :: rest)).1 =
        Payload.mk s none Channel.default ::
          (dispatchSegments media pub false (ckptUpdate ckpt pub) rest).1 :=
      rfl
    rw [hcons] at hp
    rcases List.mem_cons.mp hp with rfl | hmem
    · exact ⟨rfl, rfl⟩
    · exact ih _ p hmem

/-- Without a media url, every payload carries no media and goes to the
default channel, first segment included. -/
theorem dispatchSegments_noMedia (pub : Int) :
    ∀ (segs : List Str) (first : Bool) (ckpt : Option Int) (p : Payload),
    p ∈ (dispatchSegments none pub first ckpt segs).1 →
    p.value2 = none ∧ p.channel = Channel.default := by
  intro segs
  induction segs with
  | nil => intro first ckpt p hp; simp [dispatchSegments] at hp
  | cons s rest ih =>
    intro first ckpt p hp
    have hcons : (dispatchSegments none pub first ckpt (s :: rest)).1 =
        Payload.mk s none Channel.default ::
          (dispatchSegments none pub false (ckptUpdate ckpt pub) rest).1 := by
      cases first <;> rfl
    rw [hcons] at hp
    rcases List.mem_cons.mp hp with rfl | hmem
    · exact ⟨rfl, rfl⟩
    · exact ih false _ p hmem

/-- With a media url, the payload list opens with the first segment
carrying the url on the with-image channel. -/
theorem dispatchSegments_first_media (url : Str) (pub : Int)
    (ckpt : Option Int) (s : Str) (rest : List Str) :
    (dispatchSegments (some url) pub true ckpt (s :: rest)).1 =
      Payload.mk s (some url) Channel.withImage ::
        (dispatchSegments (some url) pub false (ckptUpdate ckpt pub) rest).1 :=
  rfl

/-- The primary texts of the built payloads are exactly the segments, in
order. -/
theorem dispatchSegments_value1 (media : Option Str) (pub : Int) :
    ∀ (segs : List Str) (first : Bool) (ckpt : Option Int),
    ((dispatchSegments media pub first ckpt segs).1).map Payload.value1 =
      segs := by
  intro segs
  induction segs with
  | nil => intro first ckpt; rfl
  | cons s rest ih =>
    intro first ckpt
    have hcons : (dispatchSegments media pub first ckpt (s :: rest)).1 =
        (if first && media.isSome then
          (⟨s, media, Channel.withImage⟩ : Payload)
         else ⟨s, none, Channel.default⟩) ::
          (dispatchSegments media pub false (ckptUpdate ckpt pub) rest).1 :=
      rfl
    rw [hcons, List.map_cons, ih false (ckptUpdate ckpt pub)]
    congr 1
    split <;> rfl

/-- A tag-excluded item is skipped without touching the state. -/
theorem processItems_skip (w : Str → Nat) (last : Option Int)
    (item : FeedItem) (rest : List FeedItem) (ckpt : Option Int)
    (hexcl : hasExclusionTag item = true) :
    processItems w last (item :: rest) ckpt =
      processItems w last rest ckpt := by
  simp [processItems, hexcl]

/-- The dispatched items are exactly the processed items that are neither
tag-excluded nor stale, in processing order. -/
theorem processItems_map_item (w : Str → Nat) (last : Option Int) :
    ∀ (items : List FeedItem) (ckpt : Option Int) (ds : List Dispatch)
      (ck : Option Int),
    processItems w last items ckpt = some (ds, ck) →
    ds.map Dispatch.item =
      items.filter
        (fun it => !hasExclusionTag it && isNewItem last it.pubDate) := by
  intro items
  induction items with
  | nil =>
    intro ckpt ds ck h
    simp only [processItems, Option.some.injEq, Prod.mk.injEq] at h
    obtain ⟨rfl, rfl⟩ := h
    simp
  | cons item rest ih =>
    intro ckpt ds ck h
    unfold processItems at h
    by_cases hexcl : hasExclusionTag item = true
    · rw [if_pos hexcl] at h
      rw [List.filter_cons, if_neg (by simp [hexcl])]
      exact ih ckpt ds ck h
    · rw [if_neg hexcl] at h
      have hexcl' : hasExclusionTag item = false := by
        revert hexcl; cases hasExclusionTag item <;> simp
      by_cases hnew : isNewItem last item.pubDate = true
      · rw [if_pos hnew] at h
        cases hseg : segmentContent w "====".toList 280 item.content with
        | none => rw [hseg] at h; exact absurd h (by simp)
        | some segs =>
          rw [hseg] at h
          dsimp only at h
          obtain ⟨q, hq, hqe⟩ := Option.map_eq_some'.mp h
          obtain ⟨ds', ck'⟩ := q
          simp only [Prod.mk.injEq] at hqe
          obtain ⟨rfl, rfl⟩ := hqe
          rw [List.map_cons, List.filter_cons, if_pos (by simp [hexcl', hnew])]
          exact congrArg (item :: ·) (ih _ ds' _ hq)
      · rw [if_neg hnew] at h
        have hnew' : isNewItem last item.pubDate = false := by
          revert hnew; cases isNewItem last item.pubDate <;> simp
        rw [List.filter_cons, if_neg (by simp [hnew'])]
        exact ih ckpt ds ck h

/-- Starting from a positive checkpoint candidate, the final candidate is
the fold of max over the publish times of the dispatched items that
produced at least one segment. -/
theorem processItems_ckpt (w : Str → Nat) (last : Option Int) :
    ∀ (items : List FeedItem) (a : Int) (ds : List Dispatch)
      (ck : Option Int),
    0 < a →
    processItems w last items (some a) = some (ds, ck) →
    ck = some (List.foldl max a (dispatchedPubs ds)) := by
  intro items
  induction items with
  | nil =>
    intro a ds ck ha h
    simp only [processItems, Option.some.injEq, Prod.mk.injEq] at h
    obtain ⟨rfl, rfl⟩ := h
    simp [dispatchedPubs]
  | cons item rest ih =>
    intro a ds ck ha h
    unfold processItems at h
    by_cases hexcl : hasExclusionTag item = true
    · rw [if_pos hexcl] at h; exact ih a ds ck ha h
    · rw [if_neg hexcl] at h
      by_cases hnew : isNewItem last item.pubDate = true
      · rw [if_pos hnew] at h
        cases hseg : segmentContent w "====".toList 280 item.content with
        | none => rw [hseg] at h; exact absurd h (by simp)
        | some segs =>
          rw [hseg] at h
          dsimp only at h
          obtain ⟨q, hq, hqe⟩ := Option.map_eq_some'.mp h
          obtain ⟨ds', ck'⟩ := q
          simp only [Prod.mk.injEq] at hqe
          obtain ⟨rfl, rfl⟩ := hqe
          cases segs with
          | nil =>
            have hck := ih a ds' _ ha hq
            rw [hck]
            have hpubs : dispatchedPubs
                (⟨item, (dispatchSegments item.mediaUrl item.pubDate true
                  (some a) []).1⟩ :: ds') = dispatchedPubs ds' := by
              simp [dispatchedPubs, dispatchSegments, List.filterMap_cons]
            rw [hpubs]
          | cons s rest' =>
            have hsnd : (dispatchSegments item.mediaUrl item.pubDate true
                (some a) (s :: rest')).2 = some (max a item.pubDate) := by
              rw [dispatchSegments_snd]
              exact foldl_ckptUpdate_cons a item.pubDate ha s rest'
            rw [hsnd] at hq
            have hck := ih (max a item.pubDate) ds' _
              (lt_of_lt_of_le ha (le_max_left _ _)) hq
            rw [hck]
            have hpubs : dispatchedPubs
                (⟨item, (dispatchSegments item.mediaUrl item.pubDate true
                  (some a) (s :: rest')).1⟩ :: ds') =
                item.pubDate :: dispatchedPubs ds' := by
              have hne : ¬ (dispatchSegments item.mediaUrl item.pubDate true
                  (some a) (s :: rest')).1 = [] := List.cons_ne_nil _ _
              simp [dispatchedPubs, List.filterMap_cons, hne]
            rw [hpubs, List.foldl_cons]
      · rw [if_neg hnew] at h; exact ih a ds ck ha h

/-- When the separator occurs at index i below maxLen, the loop emits the
text before it and resumes after the separator. -/
theorem segLoopI_cut (w : Str → Nat) (sep : Str) (maxLen fuel : Nat)
    (rem : Str) (i : Nat) (hrem : ¬ rem = [])
    (hidx : strIndexOf? rem sep = some i) (hlt : i < maxLen) :
    segLoopI w sep maxLen (fuel + 1) rem =
      (segLoopI w sep maxLen fuel (rem.drop (i + sep.length))).map
        (fun l => (⟨rem.take i, true, true⟩ : SegInfo) :: l) := by
  have hstep : segStep w sep maxLen rem =
      (⟨rem.take i, true, true⟩, rem.drop (i + sep.length)) := by
    unfold segStep
    rw [hidx]
    dsimp only
    rw [if_pos hlt]
  show (if rem = [] then some []
    else (segLoopI w sep maxLen fuel (segStep w sep maxLen rem).2).map
      (fun infos => (segStep w sep maxLen rem).1 :: infos)) =
    (segLoopI w sep maxLen fuel (rem.drop (i + sep.length))).map
      (fun l => (⟨rem.take i, true, true⟩ : SegInfo) :: l)
  rw [if_neg hrem, hstep]

/-- Claim C1 (corrected), counterexample: with lastCheckpoint 100 and a
single item tagged NoCrossPost published at 150, the run dispatches
nothing and the new checkpoint candidate stays 100 — not the 150 the
claim asserts.  In the source the tag check at line 203 returns before
the checkpoint update at line 262, so a skipped item never advances the
candidate. -/
theorem c1_counterexample :
    processRun plainWeight 10 (some 100)
      [⟨"p".toList, 150, "hello".toList, none, ["NoCrossPost".toList]⟩] =
      some ([], some 100) ∧ ¬ ((some 100 : Option Int) = some 150) :=
  ⟨by decide, by decide⟩

/-- Claim C1 (amended): a tag-excluded item is skipped without touching
the run state, so the new checkpoint candidate is the max of the (present
and positive) lastCheckpoint and the publish times of the dispatched
items that produced at least one segment; in the scenario of the claim
the item is excluded from dispatch and the checkpoint stays 100. -/
theorem c1_amended :
    (∀ (w : Str → Nat) (last : Option Int) (item : FeedItem)
        (rest : List FeedItem) (ckpt : Option Int),
      hasExclusionTag item = true →
      processItems w last (item :: rest) ckpt =
        processItems w last rest ckpt) ∧
    (∀ (w : Str → Nat) (maxItems : Nat) (c : Int) (items : List FeedItem)
        (ds : List Dispatch) (ck : Option Int),
      0 < c →
      processRun w maxItems (some c) items = some (ds, ck) →
      ck = some (List.foldl max c (dispatchedPubs ds))) ∧
    processRun plainWeight 10 (some 100)
      [⟨"p".toList, 150, "hello".toList, none, ["NoCrossPost".toList]⟩] =
      some ([], some 100) := by
  refine ⟨?_, ?_, by decide⟩
  · intro w last item rest ckpt hexcl
    exact processItems_skip w last item rest ckpt hexcl
  · intro w maxItems c items ds ck hc h
    exact processItems_ckpt w (some c) _ c ds ck hc h

/-- Witness for c1_amended at a concrete dispatched item. -/
theorem c1_amended_witness :
    (0 : Int) < 100 ∧
    (some 150 : Option Int) = some (List.foldl max 100 (dispatchedPubs
      [⟨itemPlain 150 "A".toList, [⟨"A".toList, none, Channel.default⟩]⟩])) :=
  ⟨by decide, c1_amended.2.1 plainWeight 10 100 [itemPlain 150 "A".toList]
    [⟨itemPlain 150 "A".toList, [⟨"A".toList, none, Channel.default⟩]⟩]
    (some 150) (by decide) (by decide)⟩

/-- Claim C2 (corrected), counterexample: with a present checkpoint of 0,
an item published at 0 is dispatched even though its publish time is not
greater than the checkpoint — JS truthiness at line 208 treats the
stored 0 as absent. -/
theorem c2_counterexample :
    processRun plainWeight 10 (some 0) [itemPlain 0 "A".toList] =
      some ([⟨itemPlain 0 "A".toList,
        [⟨"A".toList, none, Channel.default⟩]⟩], some 0) ∧
    ¬ ((0 : Int) < 0) :=
  ⟨by decide, by decide⟩

/-- Claim C2 (amended): for every present nonzero checkpoint C, every
dispatched item has publish time strictly greater than C. -/
theorem c2_amended :
    ∀ (w : Str → Nat) (maxItems : Nat) (c : Int) (items : List FeedItem)
      (ds : List Dispatch) (ck : Option Int),
    ¬ c = 0 →
    processRun w maxItems (some c) items = some (ds, ck) →
    ∀ d ∈ ds, c < d.item.pubDate := by
  intro w maxItems c items ds ck hc h d hd
  have hmap := processItems_map_item w (some c) _ _ ds ck h
  have hmem : d.item ∈ ds.map Dispatch.item := List.mem_map_of_mem _ hd
  rw [hmap] at hmem
  have hpred := (List.mem_filter.mp hmem).2
  simp only [Bool.and_eq_true] at hpred
  have hnew := hpred.2
  simp only [isNewItem, Bool.or_eq_true, beq_iff_eq, decide_eq_true_eq]
    at hnew
  rcases hnew with h0 | hlt
  · exact absurd h0 hc
  · exact hlt

/-- Witness for c2_amended at a concrete run. -/
theorem c2_amended_witness :
    ¬ (100 : Int) = 0 ∧
    ∀ d ∈ [(⟨itemPlain 150 "A".toList,
        [⟨"A".toList, none, Channel.default⟩]⟩ : Dispatch)],
      (100 : Int) < d.item.pubDate :=
  ⟨by decide, c2_amended plainWeight 10 100 [itemPlain 150 "A".toList]
    [⟨itemPlain 150 "A".toList, [⟨"A".toList, none, Channel.default⟩]⟩]
    (some 150) (by decide) (by decide)⟩

/-- Claim C3 (corrected), counterexample: a failing feed fetch happens
before the try block (line 159 vs line 173), so the error escapes the
entry point instead of being caught; the claim that all errors are
caught internally is false. -/
theorem c3_counterexample :
    handlerModel plainWeight 10 (Except.error "network failure".toList)
      (Except.ok none) (fun _ => Except.ok []) true =
      some ⟨some "network failure".toList, none⟩ := by
  decide

/-- Claim C3 (amended): errors of the feed fetch and of the checkpoint
read escape the entry point (with no checkpoint mutation); every error
from parsing onward is caught, so a run that got past the checkpoint
read never lets an exception escape. -/
theorem c3_amended :
    (∀ (w : Str → Nat) (m : Nat) (e : Str)
        (ck : Except Str (Option Int))
        (parse : Str → Except Str (List FeedItem)) (putOk : Bool),
      handlerModel w m (Except.error e) ck parse putOk =
        some ⟨some e, none⟩) ∧
    (∀ (w : Str → Nat) (m : Nat) (body e : Str)
        (parse : Str → Except Str (List FeedItem)) (putOk : Bool),
      handlerModel w m (Except.ok body) (Except.error e) parse putOk =
        some ⟨some e, none⟩) ∧
    (∀ (w : Str → Nat) (m : Nat) (body : Str) (last : Option Int)
        (parse : Str → Except Str (List FeedItem)) (putOk : Bool)
        (r : RunOutcome),
      handlerModel w m (Except.ok body) (Except.ok last) parse putOk =
        some r →
      r.escaped = none) := by
  refine ⟨fun _ _ _ _ _ _ => rfl, fun _ _ _ _ _ _ => rfl, ?_⟩
  intro w m body last parse putOk r h
  unfold handlerModel at h
  dsimp only at h
  cases hp : parse body with
  | error e =>
    rw [hp] at h
    obtain rfl := Option.some.inj h
    rfl
  | ok items =>
    rw [hp] at h
    dsimp only at h
    cases hr : processRun w m last items with
    | none => rw [hr] at h; exact absurd h (by simp)
    | some q =>
      rw [hr] at h
      dsimp only at h
      cases hk : q.2 with
      | none =>
        rw [hk] at h
        obtain rfl := Option.some.inj h
        rfl
      | some v =>
        rw [hk] at h
        obtain rfl := Option.some.inj h
        rfl

/-- Witness for c3_amended on a run that got past the checkpoint read. -/
theorem c3_amended_witness :
    RunOutcome.escaped ⟨none, none⟩ = none :=
  c3_amended.2.2 plainWeight 10 [] none (fun _ => Except.ok []) true
    ⟨none, none⟩ (by decide)

/-- Claim C4 (confirmed): whenever the segmentation loop terminates,
concatenating the emitted segments and re-inserting the separator at
every position where the loop consumed one reconstructs the remaining
content exactly. -/
theorem c4_reconstruction :
    ∀ (w : Str → Nat) (sep : Str) (maxLen fuel : Nat) (rem : Str)
      (infos : List SegInfo),
    segLoopI w sep maxLen fuel rem = some infos →
    reconstructSegs sep infos = rem := by
  intro w sep maxLen fuel
  induction fuel with
  | zero => intro rem infos h; exact absurd h (by simp [segLoopI])
  | succ fuel ih =>
    intro rem infos h
    unfold segLoopI at h
    split at h
    · next hrem =>
      obtain rfl := Option.some.inj h
      simp [reconstructSegs, hrem]
    · next hrem =>
      obtain ⟨tail, htail, rfl⟩ := Option.map_eq_some'.mp h
      have hrec := ih (segStep w sep maxLen rem).2 tail htail
      unfold reconstructSegs at hrec ⊢
      simp only [List.foldr_cons]
      rw [hrec]
      exact (segStep_decomp w sep maxLen rem).symm

/-- Witness for c4_reconstruction on a concrete segmentation. -/
theorem c4_witness :
    reconstructSegs "====".toList
      [⟨"AAA".toList, true, true⟩, ⟨"BBB".toList, false, false⟩] =
      "AAA====BBB".toList :=
  c4_reconstruction plainWeight "====".toList 280 11 "AAA====BBB".toList
    [⟨"AAA".toList, true, true⟩, ⟨"BBB".toList, false, false⟩] (by decide)

/-- Claim C5 (confirmed): in every terminating run of the segmentation
loop with a positive bound, every segment not produced by the explicit
separator cut has weighted length at most maxLen. -/
theorem c5_bound :
    ∀ (w : Str → Nat) (sep : Str) (maxLen fuel : Nat) (rem : Str)
      (infos : List SegInfo),
    0 < maxLen →
    segLoopI w sep maxLen fuel rem = some infos →
    ∀ info ∈ infos, info.explicitCut = false → w info.text ≤ maxLen := by
  intro w sep maxLen fuel
  induction fuel with
  | zero => intro rem infos _ h; exact absurd h (by simp [segLoopI])
  | succ fuel ih =>
    intro rem infos hmax h info hmem hcut
    unfold segLoopI at h
    split at h
    · obtain rfl := Option.some.inj h
      exact absurd hmem (by simp)
    · next hrem =>
      obtain ⟨tail, htail, rfl⟩ := Option.map_eq_some'.mp h
      rcases List.mem_cons.mp hmem with rfl | hmemtail
      · rcases segStep_cut_or_bound_or_fix w sep maxLen rem hmax with
          hcutT | hw | hfix
        · rw [hcut] at hcutT
          exact absurd hcutT (by simp)
        · exact hw
        · rw [hfix] at htail
          rw [segLoopI_none_of_fix w sep maxLen rem hrem hfix fuel] at htail
          exact absurd htail (by simp)
      · exact ih _ tail hmax htail info hmemtail hcut

/-- Witness for c5_bound on a concrete non-cut segment. -/
theorem c5_witness :
    0 < 280 ∧ plainWeight "BBB".toList ≤ 280 :=
  ⟨by decide, c5_bound plainWeight "====".toList 280 11 "AAA====BBB".toList
    [⟨"AAA".toList, true, true⟩, ⟨"BBB".toList, false, false⟩]
    (by decide) (by decide) ⟨"BBB".toList, false, false⟩ (by decide)
    (by decide)⟩

/-- Claim C6 (confirmed): items are processed in reverse of feed order
(the source reverses the first maxItems at line 191), so the dispatched
items are exactly the selected ones in oldest-first order; in the
scenario with checkpoint absent and newest-first items published at 100
and 50, both are selected, dispatch order is 50 then 100, and the new
checkpoint is 100. -/
theorem c6_order :
    (∀ (w : Str → Nat) (maxItems : Nat) (last : Option Int)
        (items : List FeedItem) (ds : List Dispatch) (ck : Option Int),
      processRun w maxItems last items = some (ds, ck) →
      ds.map Dispatch.item =
        ((items.take maxItems).reverse).filter
          (fun it => !hasExclusionTag it && isNewItem last it.pubDate)) ∧
    processRun plainWeight 10 none
      [itemPlain 100 "A".toList, itemPlain 50 "B".toList] =
      some ([⟨itemPlain 50 "B".toList,
          [⟨"B".toList, none, Channel.default⟩]⟩,
        ⟨itemPlain 100 "A".toList,
          [⟨"A".toList, none, Channel.default⟩]⟩],
        some 100) := by
  refine ⟨?_, by decide⟩
  intro w maxItems last items ds ck h
  exact processItems_map_item w last _ _ ds ck h

/-- Witness for c6_order on the scenario run. -/
theorem c6_witness :
    [(⟨itemPlain 50 "B".toList,
        [⟨"B".toList, none, Channel.default⟩]⟩ : Dispatch),
      ⟨itemPlain 100 "A".toList,
        [⟨"A".toList, none, Channel.default⟩]⟩].map Dispatch.item =
      (([itemPlain 100 "A".toList, itemPlain 50 "B".toList].take 10).reverse).filter
        (fun it => !hasExclusionTag it && isNewItem none it.pubDate) :=
  c6_order.1 plainWeight 10 none
    [itemPlain 100 "A".toList, itemPlain 50 "B".toList]
    [⟨itemPlain 50 "B".toList, [⟨"B".toList, none, Channel.default⟩]⟩,
      ⟨itemPlain 100 "A".toList, [⟨"A".toList, none, Channel.default⟩]⟩]
    (some 100) (by decide)

/-- Claim C7 (confirmed): when the separator occurs within the first
maxLen characters of the remaining content, the text before it becomes
one segment regardless of its weighted length and the separator is
consumed; segmenting AAA====BBB with separator ==== and bound 280 yields
exactly AAA and BBB, for every weighting that accepts BBB and in
particular for the plain one. -/
theorem c7_separatorCut :
    (∀ (w : Str → Nat) (sep : Str) (maxLen fuel : Nat) (rem : Str)
        (i : Nat),
      ¬ rem = [] → strIndexOf? rem sep = some i → i < maxLen →
      segLoopI w sep maxLen (fuel + 1) rem =
        (segLoopI w sep maxLen fuel (rem.drop (i + sep.length))).map
          (fun l => (⟨rem.take i, true, true⟩ : SegInfo) :: l)) ∧
    (∀ w : Str → Nat, w "BBB".toList ≤ 280 →
      segmentContent w "====".toList 280 "AAA====BBB".toList =
        some ["AAA".toList, "BBB".toList]) ∧
    segmentContent plainWeight "====".toList 280 "AAA====BBB".toList =
      some ["AAA".toList, "BBB".toList] := by
  refine ⟨fun w sep maxLen fuel rem i => segLoopI_cut w sep maxLen fuel rem i,
    ?_, by decide⟩
  intro w hw
  have hidx2 : strIndexOf? "BBB".toList "====".toList = none := by decide
  have hsh : shorten w 280 "BBB".toList = "BBB".toList := by
    show shortenFuel w 280 3 "BBB".toList = "BBB".toList
    unfold shortenFuel
    rw [if_pos hw]
  have htake : "BBB".toList.take 280 = "BBB".toList := by decide
  have hstep2 : segStep w "====".toList 280 "BBB".toList =
      (⟨"BBB".toList, false, false⟩, []) := by
    unfold segStep segStepB
    rw [hidx2]
    dsimp only
    rw [htake, hsh]
    decide
  have hL2 : segLoopI w "====".toList 280 10 "BBB".toList =
      some [⟨"BBB".toList, false, false⟩] := by
    show (if "BBB".toList = ([] : Str) then some []
      else (segLoopI w "====".toList 280 9
          (segStep w "====".toList 280 "BBB".toList).2).map
        (fun infos => (segStep w "====".toList 280 "BBB".toList).1 :: infos)) =
      some [⟨"BBB".toList, false, false⟩]
    rw [if_neg (by decide), hstep2]
    simp [segLoopI]
  have hdrop : "AAA====BBB".toList.drop (3 + "====".toList.length) =
      "BBB".toList := by decide
  show (segLoopI w "====".toList 280 (10 + 1) "AAA====BBB".toList).map
      (List.map SegInfo.text) = some ["AAA".toList, "BBB".toList]
  rw [segLoopI_cut w "====".toList 280 10 "AAA====BBB".toList 3
    (by decide) (by decide) (by decide), hdrop, hL2]
  rfl

/-- Witness for the separator-cut unfolding of c7_separatorCut. -/
theorem c7_witness :
    segLoopI plainWeight "====".toList 280 (10 + 1) "AAA====BBB".toList =
      (segLoopI plainWeight "====".toList 280 10
        ("AAA====BBB".toList.drop (3 + "====".toList.length))).map
        (fun l => (⟨"AAA====BBB".toList.take 3, true, true⟩ : SegInfo) :: l) :=
  c7_separatorCut.1 plainWeight "====".toList 280 10 "AAA====BBB".toList 3
    (by decide) (by decide) (by decide)

/-- Claim C8 (corrected), counterexample: an item with a media url whose
content is empty yields zero segments, so the dispatcher emits zero
payloads and no payload carries the media url — not exactly one as the
claim asserts. -/
theorem c8_counterexample :
    processRun plainWeight 10 none
      [⟨"p".toList, 5, [], some "u".toList, []⟩] =
      some ([⟨⟨"p".toList, 5, [], some "u".toList, []⟩, []⟩], none) := by
  decide

/-- Claim C8 (amended): for an item with a media url whose content yields
at least one segment, exactly one payload carries the url — the first,
routed to the with-image channel — and all later payloads carry none and
go to the default channel; without a media url every payload carries
none and goes to the default channel. -/
theorem c8_amended :
    (∀ (url : Str) (pub : Int) (ckpt : Option Int) (s : Str)
        (rest : List Str),
      ((dispatchSegments (some url) pub true ckpt (s :: rest)).1.countP
        (fun p => p.value2.isSome) = 1) ∧
      ((dispatchSegments (some url) pub true ckpt (s :: rest)).1.head? =
        some ⟨s, some url, Channel.withImage⟩) ∧
      (∀ p ∈ ((dispatchSegments (some url) pub true ckpt (s :: rest)).1).tail,
        p.value2 = none ∧ p.channel = Channel.default)) ∧
    (∀ (pub : Int) (first : Bool) (ckpt : Option Int) (segs : List Str)
        (p : Payload),
      p ∈ (dispatchSegments none pub first ckpt segs).1 →
      p.value2 = none ∧ p.channel = Channel.default) := by
  constructor
  · intro url pub ckpt s rest
    rw [dispatchSegments_first_media]
    refine ⟨?_, rfl, ?_⟩
    · rw [List.countP_cons]
      have hz : (dispatchSegments (some url) pub false (ckptUpdate ckpt pub)
          rest).1.countP (fun p => p.value2.isSome) = 0 := by
        rw [List.countP_eq_zero]
        intro p hp
        have := (dispatchSegments_rest (some url) pub rest _ p hp).1
        simp [this]
      simp [hz]
    · intro p hp
      exact dispatchSegments_rest (some url) pub rest _ p hp
  · intro pub first ckpt segs p hp
    exact dispatchSegments_noMedia pub segs first ckpt p hp

/-- Witness for the no-media half of c8_amended. -/
theorem c8_witness :
    Payload.value2 ⟨"x".toList, none, Channel.default⟩ = none ∧
    Payload.channel ⟨"x".toList, none, Channel.default⟩ = Channel.default :=
  c8_amended.2 7 true none ["x".toList]
    ⟨"x".toList, none, Channel.default⟩ (by decide)

/-- Claim C9 (confirmed): starting from a nonempty candidate of at most
maxLen characters, under the stated weighting assumptions (weighted
length non-decreasing in string length, a single character always within
the bound) the shortening loop terminates at a nonempty candidate whose
weighted length is within the bound. -/
theorem c9_termination :
    ∀ (w : Str → Nat) (maxLen : Nat) (s : Str),
    ¬ s = [] → s.length ≤ maxLen →
    (∀ t : Str, w t.dropLast ≤ w t) →
    (∀ c : Char, w [c] ≤ maxLen) →
    shorten w maxLen s ≠ [] ∧ w (shorten w maxLen s) ≤ maxLen :=
  fun w maxLen s hne _ _ hone =>
    shortenFuel_ok w maxLen hone s.length s (Nat.le_refl _) hne

/-- Witness for c9_termination at the plain weighting. -/
theorem c9_witness :
    ¬ ("AB".toList : Str) = [] ∧ "AB".toList.length ≤ 280 ∧
    (shorten plainWeight 280 "AB".toList ≠ [] ∧
      plainWeight (shorten plainWeight 280 "AB".toList) ≤ 280) :=
  ⟨by decide, by decide,
    c9_termination plainWeight 280 "AB".toList (by decide) (by decide)
      (fun t => by simp only [plainWeight, List.length_dropLast]; omega)
      (fun c => by simp only [plainWeight, List.length_singleton]; omega)⟩

/-- Claim C10 (confirmed): whenever the remaining content begins with the
(nonempty) separator and the bound is positive, the loop emits the empty
string as a segment; the dispatcher sends one payload per segment whose
primary text is exactly that segment, so such segments become payloads
with empty primary text — as in the concrete run on ====BBB. -/
theorem c10_emptySegments :
    (∀ (w : Str → Nat) (sep : Str) (maxLen fuel : Nat) (rem : Str),
      ¬ sep = [] → strHasPre sep rem = true → 0 < maxLen →
      segLoopI w sep maxLen (fuel + 1) rem =
        (segLoopI w sep maxLen fuel (rem.drop sep.length)).map
          (fun l => (⟨[], true, true⟩ : SegInfo) :: l)) ∧
    (∀ (media : Option Str) (pub : Int) (segs : List Str) (first : Bool)
        (ckpt : Option Int),
      ((dispatchSegments media pub first ckpt segs).1).map Payload.value1 =
        segs) ∧
    processRun plainWeight 10 none [itemPlain 7 "====BBB".toList] =
      some ([⟨itemPlain 7 "====BBB".toList,
        [⟨[], none, Channel.default⟩,
          ⟨"BBB".toList, none, Channel.default⟩]⟩],
        some 7) := by
  refine ⟨?_, ?_, by decide⟩
  · intro w sep maxLen fuel rem hsep hpre hmax
    have hrem : ¬ rem = [] := by
      intro hr
      subst hr
      cases sep with
      | nil => exact hsep rfl
      | cons a p => simp [strHasPre] at hpre
    have hidx : strIndexOf? rem sep = some 0 := by
      unfold strIndexOf?
      rw [if_pos hpre]
    have h := segLoopI_cut w sep maxLen fuel rem 0 hrem hidx hmax
    simpa using h
  · intro media pub segs first ckpt
    exact dispatchSegments_value1 media pub segs first ckpt

/-- Witness for the empty-segment unfolding of c10_emptySegments. -/
theorem c10_witness :
    segLoopI plainWeight "====".toList 280 (7 + 1) "====BBB".toList =
      (segLoopI plainWeight "====".toList 280 7
        ("====BBB".toList.drop "====".toList.length)).map
        (fun l => (⟨[], true, true⟩ : SegInfo) :: l) :=
  c10_emptySegments.1 plainWeight "====".toList 280 7 "====BBB".toList
    (by decide) (by decide) (by decide)
